import Mathlib

/-!
Verification of the pyblog static-site generator (`generate_site.py`)
against its natural-language specification.

The relevant parts of the source are shallowly embedded below:
pure fragments of the Python code become Lean functions; the file-writing
loops become functions returning the list of (path, content) decisions
they make.  Machine-level concerns (actual disk I/O, the Jinja template
expansion, the Markdown renderer) are outside the embedded core, exactly
as the spec scopes them out.
-/

namespace PyBlog

/-! ### Index/Pagination renderer (`render_index`, generate_site.py lines 278-310)

`render_index` computes `total_pages = (total_posts + POSTS_PER_PAGE - 1)
// POSTS_PER_PAGE` and then, for `page_num` in `range(1, total_pages + 1)`,
slices `posts[start:end]` with `start = (page_num - 1) * POSTS_PER_PAGE`,
`end = start + POSTS_PER_PAGE`, chooses a title and an output file, and
writes the rendered page.  We model one loop iteration as an `IndexPage`
record and the whole loop as the list of pages it writes, in order.
The per-post `posts_meta` projection maps the slice one-to-one; we keep
the slice itself, with the post type `α` abstract. -/

/-- One page written by `render_index`: page number, the `title` passed to
the template, the output path relative to the output directory, and the
slice of the post list shown on that page. -/
structure IndexPage (α : Type) where
  page_num : Nat
  title : String
  out_path : String
  posts : List α
deriving DecidableEq

/-- `total_pages = (total_posts + POSTS_PER_PAGE - 1) // POSTS_PER_PAGE`
(generate_site.py line 282), in Nat arithmetic exactly as Python computes
it for the non-negative operands that arise. -/
def total_pages (total_posts posts_per_page : Nat) : Nat :=
  (total_posts + posts_per_page - 1) / posts_per_page

/-- The slice `posts[(p-1)*N : (p-1)*N + N]` taken by page `p`
(generate_site.py lines 285-287). -/
def page_posts (posts : List α) (n p : Nat) : List α :=
  (posts.drop ((p - 1) * n)).take n

/-- The pages written by `render_index`'s loop, in loop order
(generate_site.py lines 284-310).  Page 1 goes to `index.html` with title
`"Home"`; page `p > 1` goes to `page/<p>.html` with title
`"Home - Pagina <p>"`. -/
def render_index_pages (posts : List α) (n : Nat) : List (IndexPage α) :=
  (List.range (total_pages posts.length n)).map fun i =>
    { page_num := i + 1
      title := if i + 1 = 1 then "Home" else "Home - Pagina " ++ toString (i + 1)
      out_path := if i + 1 = 1 then "index.html" else "page/" ++ toString (i + 1) ++ ".html"
      posts := page_posts posts n (i + 1) }

/-- The slices alone, page by page. -/
def pages_slices (posts : List α) (n : Nat) : List (List α) :=
  (List.range (total_pages posts.length n)).map fun i => page_posts posts n (i + 1)

/-- Demo page used to instantiate the C9 theorem. -/
def pg2demo : IndexPage Nat :=
  { page_num := 2, title := "Home - Pagina 2", out_path := "page/2.html", posts := [5] }

/-! ### Responsive image rewriter (`apply_responsive_images`, lines 172-191)

The Python code performs
`pattern = re.compile(r'<img([^>]+)src="(?P<src>images/[^">]+)"([^>]*)>')`
and `pattern.sub(repl, html)`.  We embed the regex engine's behaviour on
this fixed pattern: `re.sub` scans left to right replacing each leftmost
non-overlapping match; within a match attempt the greedy group `([^>]+)`
takes the longest run of non-'>' characters after `<img` that still lets
the rest of the pattern match (backtracking tries longer splits first),
while `images/[^">]+` and `([^>]*)` are maximal runs forced by the `"`
and `>` that must follow them.  The replacement rebuilds the tag using
`os.path.splitext(Path(src).name)`. -/

/-- The literal `<img` that opens every match of the pattern. -/
def imgLit : List Char := ['<', 'i', 'm', 'g']

/-- The literal `src="` between group 1 and the `src` group. -/
def srcQuote : List Char := ['s', 'r', 'c', '=', '"']

/-- The literal `images/` that the `src` group must start with. -/
def imagesLit : List Char := ['i', 'm', 'a', 'g', 'e', 's', '/']

/-- The text `src="images/`; every match of the pattern contains it
contiguously. -/
def srcImagesLit : List Char := srcQuote ++ imagesLit

/-- Does `pat` occur contiguously in the second list? -/
def occursIn (pat : List Char) : List Char → Bool
  | [] => pat.isEmpty
  | c :: cs => pat.isPrefixOf (c :: cs) || occursIn pat cs

/-- Split on a separator character (like Python `str.split`), keeping empty
pieces. -/
def splitOnChar (sep : Char) : List Char → List (List Char)
  | [] => [[]]
  | c :: cs =>
    if c = sep then [] :: splitOnChar sep cs
    else
      match splitOnChar sep cs with
      | [] => [[c]]
      | p :: ps => (c :: p) :: ps

/-- `pathlib.PurePosixPath(p).name`: the last path component, after empty
and `.` components are dropped by path normalisation. -/
def pathlibName (p : List Char) : List Char :=
  (((splitOnChar '/' p).filter fun comp => !(comp == []) && !(comp == ['.'])).getLast?).getD []

/-- `os.path.splitext` on a bare file name (no `/`, as produced by
`pathlibName`): split at the last dot, unless every character before that
dot is itself a dot (CPython `genericpath._splitext`). -/
def splitext (p : List Char) : List Char × List Char :=
  match p.reverse.findIdx? (· = '.') with
  | none => (p, [])
  | some k =>
    let i := p.length - 1 - k
    if (p.take i).all (· = '.') then (p, []) else (p.take i, p.drop i)

/-- The replacement text built by `repl` in `apply_responsive_images` for a
match with groups `g1`, `src` and `g3` (it rewrites `src` to the `-mobile`
variant and adds the three-entry `srcset` plus the fixed `sizes` hint). -/
def imgReplacement (g1 src g3 : List Char) : List Char :=
  let nm := pathlibName src
  let stem := (splitext nm).1
  let ext := (splitext nm).2
  ("<img").data ++ g1 ++ ("src=\"images/").data ++ stem ++ ("-mobile").data ++ ext
    ++ ("\" srcset=\"images/").data ++ stem ++ ("-mobile").data ++ ext
    ++ (" 480w, images/").data ++ stem ++ ("-desktop").data ++ ext
    ++ (" 1280w, images/").data ++ stem ++ ext
    ++ (" 1920w\" sizes=\"(max-width: 600px) 480px, 1280px\"").data ++ g3 ++ ['>']

/-- After the maximal `[^>]*` run `g3`, the pattern requires a literal `>`;
returns the match data `(src, g3, rest)` on success. -/
def afterG3 (g2 g3 : List Char) : List Char → Option (List Char × List Char × List Char)
  | [] => none
  | c2 :: rest => if c2 = '>' then some (imagesLit ++ g2, g3, rest) else none

/-- After the maximal `[^">]+` run `g2`, the pattern requires a literal `"`
and then the `([^>]*)>` part. -/
def afterQuote (g2 : List Char) : List Char → Option (List Char × List Char × List Char)
  | [] => none
  | c1 :: r2 =>
    if c1 = '"' then
      afterG3 g2 (r2.takeWhile fun c => !(c == '>')) (r2.dropWhile fun c => !(c == '>'))
    else none

/-- Match `images/[^">]+"([^>]*)>` at the start of `s` (the part of the
pattern after the literal `src="`): both character-class runs are maximal,
forced by the `"` and `>` that must follow.  Returns the full `src` group
(including its `images/` prefix), the group `g3`, and the input left after
the closing `>`. -/
def matchTail (s : List Char) : Option (List Char × List Char × List Char) :=
  if imagesLit.isPrefixOf s then
    if ((s.drop 7).takeWhile fun c => !(c == '"') && !(c == '>')).isEmpty then none
    else
      afterQuote ((s.drop 7).takeWhile fun c => !(c == '"') && !(c == '>'))
        ((s.drop 7).dropWhile fun c => !(c == '"') && !(c == '>'))
  else none

/-- First-success choice: the backtracking preference between the deeper
candidate (longer group 1) and the candidate at the current position. -/
def orElseO {α : Type} : Option α → Option α → Option α
  | some r, _ => some r
  | none, b => b

/-- Greedy search for a split `s = g1 ++ "src=\"" ++ t` (g1 free of '>')
such that the rest of the pattern matches `t`: backtracking prefers the
longest `g1`, so the deeper candidate wins.  Returns `(g1, src, g3, rest)`;
`g1` may be empty here, the caller enforces the `+` of `([^>]+)`. -/
def matchFrom : List Char → Option (List Char × List Char × List Char × List Char)
  | [] => none
  | c :: cs =>
    orElseO
      (if c == '>' then none
       else (matchFrom cs).map fun r => (c :: r.1, r.2.1, r.2.2.1, r.2.2.2))
      (if srcQuote.isPrefixOf (c :: cs) then
        (matchTail ((c :: cs).drop 5)).map fun r => ([], r.1, r.2.1, r.2.2)
      else none)

/-- The `+` of `([^>]+)`: a successful greedy search only yields a match
when group 1 is non-empty (the greedy search returns the longest candidate,
so an empty group 1 means it was the only candidate). -/
def afterFrom : Option (List Char × List Char × List Char × List Char) →
    Option (List Char × List Char)
  | some (g1, src, g3, rest) =>
    if g1.isEmpty then none else some (imgReplacement g1 src g3, rest)
  | none => none

/-- Try to match the whole pattern at the start of `s`; on success return
the replacement text and the input left after the match. -/
def matchAt (s : List Char) : Option (List Char × List Char) :=
  if imgLit.isPrefixOf s then afterFrom (matchFrom (s.drop 4)) else none

/-- The `re.sub` scan: try a match at each position, left to right; on a
match emit the replacement and continue after it.  One unit of fuel is
spent per position advanced, and every step consumes at least one input
character, so fuel equal to the input length always suffices. -/
def subScanF : Nat → List Char → List Char
  | 0, s => s
  | _ + 1, [] => []
  | fuel + 1, c :: cs =>
    match matchAt (c :: cs) with
    | some (r, rest) => r ++ subScanF fuel rest
    | none => c :: subScanF fuel cs

/-- `apply_responsive_images` (generate_site.py lines 172-191). -/
def apply_responsive_images (html : String) : String :=
  String.mk (subScanF html.data.length html.data)

/-! ### Slugify and tag aggregation (`slugify` lines 145-154,
`collect_all_tags_data` lines 321-344)

`slugify` strips and lowercases the value, removes characters outside
`[\w\s-]`, and collapses runs of `[-\s]+` into single hyphens.  The tag
aggregator walks the posts in order and, for each tag occurrence, creates
the dict entry on first sight (storing the tag's spelling as `name`),
appends a post summary, and increments `count`; finally each entry's post
list is sorted by date descending.  Python dicts preserve insertion order,
so the dict is modelled as an association list with new keys appended at
the end.  Datetimes are totally ordered; they are modelled as abstract
`Nat` timestamps wherever only their order matters. -/

/-- Python ASCII whitespace for `str.strip` and `\s`. -/
def pyIsSpace (c : Char) : Bool :=
  c == ' ' || c == '\t' || c == '\n' || c == '\r' || c == '\x0b' || c == '\x0c'

/-- Python `str.strip()`. -/
def pyStrip (s : List Char) : List Char :=
  ((s.dropWhile pyIsSpace).reverse.dropWhile pyIsSpace).reverse

/-- `\w` of Python `re` (ASCII range: letters, digits, underscore). -/
def isWordChar (c : Char) : Bool := c.isAlphanum || c == '_'

/-- A character matched by the `[-\s]+` collapse step. -/
def isDashSpace (c : Char) : Bool := c == '-' || pyIsSpace c

/-- `re.sub(r'[-\s]+', '-', value)`: each maximal run becomes one hyphen. -/
def collapseRuns : List Char → List Char
  | [] => []
  | [c] => if isDashSpace c then ['-'] else [c]
  | c :: c' :: cs =>
    if isDashSpace c && isDashSpace c' then collapseRuns (c' :: cs)
    else (if isDashSpace c then '-' else c) :: collapseRuns (c' :: cs)

/-- `slugify` (generate_site.py lines 145-154). -/
def slugify (s : String) : String :=
  String.mk (collapseRuns (((pyStrip s.data).map Char.toLower).filter
    fun c => isWordChar c || pyIsSpace c || c == '-'))

/-- Post metadata as accumulated by `render_posts` (title, url, date and
the post's extracted tags). -/
structure PostMeta where
  title : String
  url : String
  date : Nat
  tags : List String
deriving DecidableEq

/-- The summary `{title, url, date}` appended per tag occurrence. -/
structure PostSummary where
  title : String
  url : String
  date : Nat
deriving DecidableEq

def summaryOf (p : PostMeta) : PostSummary :=
  { title := p.title, url := p.url, date := p.date }

/-- One value of the `tags_data` dict. -/
structure TagEntry where
  name : String
  posts : List PostSummary
  count : Nat
deriving DecidableEq

/-- One iteration of `for tag_name in post['tags']` in
`collect_all_tags_data` (lines 333-338): create the entry on first sight,
then append the summary and bump the count. -/
def addTag (sm : PostSummary) (m : List (String × TagEntry)) (tag : String) :
    List (String × TagEntry) :=
  let slug := slugify tag
  if (m.find? fun e => e.1 == slug).isSome then
    m.map fun e =>
      if e.1 == slug then
        (e.1, { e.2 with posts := e.2.posts ++ [sm], count := e.2.count + 1 })
      else e
  else
    m ++ [(slug, { name := tag, posts := [sm], count := 1 })]

def addPost (m : List (String × TagEntry)) (p : PostMeta) : List (String × TagEntry) :=
  p.tags.foldl (addTag (summaryOf p)) m

/-- The dict built by the main loop of `collect_all_tags_data`, before the
per-entry date sort. -/
def collectRaw (posts : List PostMeta) : List (String × TagEntry) :=
  posts.foldl addPost []

/-- Date-descending preorder on summaries: Python's stable
`sort(key=lambda p: p['date'], reverse=True)` sorts by this relation while
preserving the relative order of ties, which determines its output
uniquely; insertion sort for this relation is that stable sort. -/
def dateDescSum (a b : PostSummary) : Prop := b.date ≤ a.date

instance : DecidableRel dateDescSum := fun a b => Nat.decLe b.date a.date

instance : IsTotal PostSummary dateDescSum :=
  ⟨fun a b => (Nat.le_total b.date a.date).elim Or.inl Or.inr⟩

instance : IsTrans PostSummary dateDescSum :=
  ⟨fun _ _ _ hab hbc => Nat.le_trans hbc hab⟩

/-- `collect_all_tags_data` (generate_site.py lines 321-344). -/
def collect_all_tags_data (posts : List PostMeta) : List (String × TagEntry) :=
  (collectRaw posts).map fun e =>
    (e.1, { e.2 with posts := List.insertionSort dateDescSum e.2.posts })

/-- Date-descending preorder on posts, for the final sort of
`render_posts`. -/
def dateDescPost (a b : PostMeta) : Prop := b.date ≤ a.date

instance : DecidableRel dateDescPost := fun a b => Nat.decLe b.date a.date

instance : IsTotal PostMeta dateDescPost :=
  ⟨fun a b => (Nat.le_total b.date a.date).elim Or.inl Or.inr⟩

instance : IsTrans PostMeta dateDescPost :=
  ⟨fun _ _ _ hab hbc => Nat.le_trans hbc hab⟩

/-- The metadata list returned by `render_posts` (lines 275-276): the
accumulated posts, in discovery order, sorted by date descending with
Python's stable `list.sort(..., reverse=True)`. -/
def render_posts_metadata (discovered : List PostMeta) : List PostMeta :=
  List.insertionSort dateDescPost discovered

/-- `tags_data[slug]` lookup (first matching key of the assoc list). -/
def lookupSlug (m : List (String × TagEntry)) (slug : String) : Option TagEntry :=
  (m.find? fun e => e.1 == slug).map fun e => e.2

/-- The count recorded for `slug` (0 when absent). -/
def countIn (m : List (String × TagEntry)) (slug : String) : Nat :=
  match lookupSlug m slug with
  | some e => e.count
  | none => 0

/-- All tag occurrences of the posts, in processing order. -/
def allTagOccurrences (posts : List PostMeta) : List String :=
  (posts.map PostMeta.tags).flatten

/-- How many (post, tag) occurrences slugify to `slug`. -/
def occCount (posts : List PostMeta) (slug : String) : Nat :=
  (allTagOccurrences posts).countP fun t => slugify t == slug

/-- The spelling of the first processed tag occurrence with this slug. -/
def firstTagName (posts : List PostMeta) (slug : String) : Option String :=
  (allTagOccurrences posts).find? fun t => slugify t == slug

/-- The keys of the tags dict, in insertion order. -/
def keysOf (m : List (String × TagEntry)) : List String := m.map Prod.fst

/-- The display name recorded for `slug` (`tags_data[slug]['name']`). -/
def nameAt (m : List (String × TagEntry)) (slug : String) : Option String :=
  (lookupSlug m slug).map TagEntry.name

/-- Demo posts for the C8 tag-name collision: "go!" and "go" share the
slug `go`. -/
def c8posts : List PostMeta :=
  [{ title := "p1", url := "posts/p1.html", date := 2, tags := ["go!"] },
   { title := "p2", url := "posts/p2.html", date := 1, tags := ["go"] }]

/-! ### Date extraction (`render_posts` lines 232-239)

`datetime.strptime(stem[:10], '%Y-%m-%d')` compiles the format to the
regex `(?P<Y>\d\d\d\d)-(?P<m>1[0-2]|0[1-9]|[1-9])-(?P<d>3[01]|[12]\d|0[1-9]|[1-9])`
(CPython `_strptime.TimeRE`), matches it with the usual alternation
backtracking, raises ValueError when input characters remain unconsumed,
and finally constructs `datetime(y, m, d)`, which validates the calendar
date (year ≥ 1, day within the month's length, Feb 29 only in leap
years).  On ValueError the code prints a warning and substitutes
`datetime.now()`. -/

structure YMD where
  y : Nat
  m : Nat
  d : Nat
deriving DecidableEq

/-- A `datetime` value: the calendar date plus an opaque time of day
(strptime results have time 0). -/
structure PyDateTime where
  ymd : YMD
  tod : Nat
deriving DecidableEq

def digitVal (c : Char) : Nat := c.toNat - 48

def isLeapYear (y : Nat) : Bool :=
  y % 4 == 0 && (!(y % 100 == 0) || y % 400 == 0)

def daysInMonth (y m : Nat) : Nat :=
  if m == 2 then (if isLeapYear y then 29 else 28)
  else if m == 4 || m == 6 || m == 9 || m == 11 then 30
  else 31

/-- `\d\d\d\d`: exactly four digits. -/
def matchYear4 : List Char → Option (Nat × List Char)
  | c1 :: c2 :: c3 :: c4 :: rest =>
    if c1.isDigit ∧ c2.isDigit ∧ c3.isDigit ∧ c4.isDigit then
      some (digitVal c1 * 1000 + digitVal c2 * 100 + digitVal c3 * 10 + digitVal c4, rest)
    else none
  | _ => none

/-- Month alternative `1[0-2]`. -/
def month2a : List Char → Option (Nat × List Char)
  | c1 :: c2 :: rest =>
    if c1 = '1' ∧ '0' ≤ c2 ∧ c2 ≤ '2' then some (10 + digitVal c2, rest) else none
  | _ => none

/-- Month alternative `0[1-9]`. -/
def month2b : List Char → Option (Nat × List Char)
  | c1 :: c2 :: rest =>
    if c1 = '0' ∧ '1' ≤ c2 ∧ c2 ≤ '9' then some (digitVal c2, rest) else none
  | _ => none

/-- Month alternative `[1-9]`. -/
def month1 : List Char → Option (Nat × List Char)
  | c :: rest => if '1' ≤ c ∧ c ≤ '9' then some (digitVal c, rest) else none
  | [] => none

/-- Day alternative `3[01]`. -/
def day2a : List Char → Option (Nat × List Char)
  | c1 :: c2 :: rest =>
    if c1 = '3' ∧ '0' ≤ c2 ∧ c2 ≤ '1' then some (30 + digitVal c2, rest) else none
  | _ => none

/-- Day alternative `[12]\d`. -/
def day2b : List Char → Option (Nat × List Char)
  | c1 :: c2 :: rest =>
    if ('1' ≤ c1 ∧ c1 ≤ '2') ∧ c2.isDigit then
      some (digitVal c1 * 10 + digitVal c2, rest)
    else none
  | _ => none

/-- Day alternative `0[1-9]`. -/
def day2c : List Char → Option (Nat × List Char)
  | c1 :: c2 :: rest =>
    if c1 = '0' ∧ '1' ≤ c2 ∧ c2 ≤ '9' then some (digitVal c2, rest) else none
  | _ => none

/-- Day alternative `[1-9]`. -/
def day1 : List Char → Option (Nat × List Char)
  | c :: rest => if '1' ≤ c ∧ c ≤ '9' then some (digitVal c, rest) else none
  | [] => none

/-- The literal `-` and the day alternation, tried in regex order; failure
here backtracks into the month alternation. -/
def dashDay : List Char → Option (Nat × List Char)
  | '-' :: rest => orElseO (day2a rest) (orElseO (day2b rest) (orElseO (day2c rest) (day1 rest)))
  | _ => none

/-- Continue a month alternative with `-<day>`. -/
def altThen : Option (Nat × List Char) → Option (Nat × Nat × List Char)
  | some (m, r) => (dashDay r).map fun dr => (m, dr.1, dr.2)
  | none => none

/-- The month alternation with backtracking into `-<day>`. -/
def monthDay (s : List Char) : Option (Nat × Nat × List Char) :=
  orElseO (altThen (month2a s)) (orElseO (altThen (month2b s)) (altThen (month1 s)))

/-- `datetime.strptime(s, '%Y-%m-%d')`: regex match, the
unconverted-data check, and the `datetime` constructor's validation. -/
def strptimeYMD (s : List Char) : Option YMD :=
  match matchYear4 s with
  | none => none
  | some (y, r1) =>
    match r1 with
    | '-' :: r2 =>
      match monthDay r2 with
      | some (m, d, rest) =>
        if rest = [] ∧ 1 ≤ y ∧ d ≤ daysInMonth y m then some ⟨y, m, d⟩ else none
      | none => none
    | _ => none

/-- The date computed by `render_posts` (lines 232-239): parse the first
10 characters of the filename stem; on ValueError print a warning and use
`datetime.now()`.  Returns the date and whether the warning path ran. -/
def render_post_date (stem : List Char) (now : PyDateTime) : PyDateTime × Bool :=
  match strptimeYMD (stem.take 10) with
  | some d => (⟨d, 0⟩, false)
  | none => (now, true)

/-! ### Tag-line extraction (`render_posts` lines 214-224)

`full_text.splitlines()` splits at Python's line boundaries (with `\r\n`
counting once and no empty final line for a trailing terminator); if the
first line lowercased starts with `tags:`, the tags are parsed from the
rest of that line and the content to render is `"\n".join(lines[1:])`. -/

/-- Python line-boundary characters (`str.splitlines`). -/
def isLineBreakChar (c : Char) : Bool :=
  c == '\n' || c == '\r' || c == '\x0b' || c == '\x0c' ||
  c == '\x1c' || c == '\x1d' || c == '\x1e' || c == '\x85' ||
  c == '\u2028' || c == '\u2029'

/-- `str.splitlines` worker; `acc` holds the current line reversed. The
fuel argument, always at least the length of the remaining input, makes
the recursion structural (a `\r\n` pair consumes two characters in one
step, so the plain list recursion is not structural). -/
def splitlinesAuxF : Nat → List Char → List Char → List (List Char)
  | 0, acc, _ => if acc.isEmpty then [] else [acc.reverse]
  | _ + 1, acc, [] => if acc.isEmpty then [] else [acc.reverse]
  | fuel + 1, acc, c :: rest =>
    if c = '\r' then
      if rest.head? = some '\n' then acc.reverse :: splitlinesAuxF fuel [] rest.tail
      else acc.reverse :: splitlinesAuxF fuel [] rest
    else if isLineBreakChar c then acc.reverse :: splitlinesAuxF fuel [] rest
    else splitlinesAuxF fuel (c :: acc) rest

def splitlines (s : List Char) : List (List Char) := splitlinesAuxF s.length [] s

/-- `lines[0].lower().startswith('tags:')`. -/
def startsWithTagsColon (line : List Char) : Bool :=
  ['t', 'a', 'g', 's', ':'].isPrefixOf (line.map Char.toLower)

/-- `[tag.strip().lower() for tag in tag_line.split(',') if tag.strip()]`
applied to `lines[0][len('tags:'):].strip()`. -/
def parseTagLine (afterColon : List Char) : List (List Char) :=
  (splitOnChar ',' (pyStrip afterColon)).filterMap fun piece =>
    let s := pyStrip piece
    if s.isEmpty then none else some (s.map Char.toLower)

/-- `"\n".join(lines)`. -/
def joinNL : List (List Char) → List Char
  | [] => []
  | [l] => l
  | l :: l' :: ls => l ++ '\n' :: joinNL (l' :: ls)

/-- The tag/body split of `render_posts` (lines 214-224): if the first
line lowercased starts with `tags:`, the tags are the parsed remainder of
that line and the body is the remaining lines joined with `\n`;
otherwise no tags and the body is the full source unchanged. -/
def extract_tags_and_body (full_text : List Char) : List (List Char) × List Char :=
  match splitlines full_text with
  | [] => ([], full_text)
  | l0 :: rest =>
    if startsWithTagsColon l0 then (parseTagLine (l0.drop 5), joinNL rest)
    else ([], full_text)

theorem total_pages_zero (n : Nat) : total_pages 0 n = 0 := by
  unfold total_pages
  match n with
  | 0 => rfl
  | k + 1 => exact Nat.div_eq_of_lt (by omega)

theorem total_pages_step (len n : Nat) (hn : 1 ≤ n) (hl : 1 ≤ len) :
    total_pages len n = total_pages (len - n) n + 1 := by
  unfold total_pages
  rcases Nat.le_total n len with h | h
  · have h1 : len + n - 1 = len - n + n - 1 + n := by omega
    rw [h1, Nat.add_div_right _ (by omega)]
  · have h0 : len - n = 0 := by omega
    have h1 : len + n - 1 = len - 1 + n := by omega
    rw [h0, h1, Nat.add_div_right _ (by omega : 0 < n), Nat.div_eq_of_lt (by omega)]
    have : total_pages 0 n = 0 := total_pages_zero n
    unfold total_pages at this
    rw [this]

theorem pages_slices_join (n : Nat) (hn : 1 ≤ n) :
    ∀ (fuel : Nat) (posts : List α), posts.length ≤ fuel →
      (pages_slices posts n).flatten = posts := by
  intro fuel
  induction fuel with
  | zero =>
    intro posts hlen
    have : posts = [] := List.eq_nil_of_length_eq_zero (by omega)
    subst this
    simp [pages_slices, total_pages_zero]
  | succ f ih =>
    intro posts hlen
    by_cases hnil : posts = []
    · subst hnil
      simp [pages_slices, total_pages_zero]
    · have hl1 : 1 ≤ posts.length := by
        cases posts with
        | nil => exact absurd rfl hnil
        | cons a tl => simp
      have hstep : total_pages posts.length n = total_pages (posts.length - n) n + 1 :=
        total_pages_step _ _ hn hl1
      unfold pages_slices
      rw [hstep, List.range_succ_eq_map, List.map_cons, List.map_map]
      have hhead : page_posts posts n (0 + 1) = posts.take n := by
        simp [page_posts]
      have htail :
          ((fun i => page_posts posts n (i + 1)) ∘ Nat.succ) =
            fun i => page_posts (posts.drop n) n (i + 1) := by
        funext i
        simp only [Function.comp, page_posts, Nat.succ_eq_add_one, Nat.add_sub_cancel,
          List.drop_drop]
        congr 2
        ring
      rw [hhead, htail]
      have hdlen : (posts.drop n).length = posts.length - n := by simp
      have hrec : (pages_slices (posts.drop n) n).flatten = posts.drop n := by
        apply ih
        have : posts.length - n ≤ f := by omega
        simpa [hdlen]
      unfold pages_slices at hrec
      rw [hdlen] at hrec
      show posts.take n ++ (List.map (fun i => page_posts (posts.drop n) n (i + 1))
        (List.range (total_pages (posts.length - n) n))).flatten = posts
      rw [hrec]
      exact List.take_append_drop n posts

/-- C1: for every posts list and every POSTS_PER_PAGE `n ≥ 1`, `render_index`
produces `total_pages = ceil(total_posts / n)` pages (characterised below as
the least `k` with `total_posts ≤ k * n`); page `p` holds exactly the slice
`[(p-1)*n, p*n)` of the given (date-descending-sorted) list, and
concatenating all pages in order reproduces the list exactly once,
contiguously, without gaps or overlaps. -/
theorem index_pagination_partition (posts : List α) (n : Nat) (hn : 1 ≤ n) :
    ((render_index_pages posts n).map IndexPage.posts).flatten = posts ∧
    (render_index_pages posts n).length = total_pages posts.length n ∧
    (∀ pg ∈ render_index_pages posts n,
      pg.posts = (posts.drop ((pg.page_num - 1) * n)).take n) ∧
    posts.length ≤ total_pages posts.length n * n ∧
    (∀ k, posts.length ≤ k * n → total_pages posts.length n ≤ k) := by
  refine ⟨?_, ?_, ?_, ?_, ?_⟩
  · have hmap : (render_index_pages posts n).map IndexPage.posts = pages_slices posts n := by
      unfold render_index_pages pages_slices
      rw [List.map_map]
      rfl
    rw [hmap]
    exact pages_slices_join n hn posts.length posts (Nat.le_refl _)
  · unfold render_index_pages
    simp
  · intro pg hpg
    unfold render_index_pages at hpg
    obtain ⟨i, _, rfl⟩ := List.mem_map.1 hpg
    rfl
  · rw [Nat.mul_comm]
    have h1 : n * total_pages posts.length n + (posts.length + n - 1) % n
        = posts.length + n - 1 := Nat.div_add_mod _ n
    have h2 : (posts.length + n - 1) % n < n := Nat.mod_lt _ (by omega)
    omega
  · intro k hk
    rw [Nat.mul_comm] at hk
    unfold total_pages
    have h1 : posts.length + n - 1 ≤ n * k + (n - 1) := by omega
    calc (posts.length + n - 1) / n ≤ (n * k + (n - 1)) / n := Nat.div_le_div_right h1
    _ = k + (n - 1) / n := Nat.mul_add_div (by omega) k (n - 1)
    _ = k := by rw [Nat.div_eq_of_lt (by omega), Nat.add_zero]

/-- Witness for C1 at 12 posts and POSTS_PER_PAGE = 5: three pages of sizes
[5, 5, 2] whose concatenation is the original list. -/
theorem index_pagination_partition_witness :
    ((render_index_pages (List.range 12) 5).map IndexPage.posts).flatten = List.range 12 ∧
    (render_index_pages (List.range 12) 5).map (fun pg => pg.posts.length) = [5, 5, 2] :=
  ⟨(index_pagination_partition (List.range 12) 5 (by decide)).1, by decide⟩

/-- C2 counterexample: with an empty posts list, `total_pages = 0` and the
loop `for page_num in range(1, total_pages + 1)` of `render_index` runs zero
times, so no page — in particular no page-1 `index.html` — is rendered. -/
theorem empty_posts_index_counterexample :
    ¬ ∃ pg ∈ render_index_pages ([] : List Nat) 5, pg.out_path = "index.html" := by
  decide

/-- C2 amended: when the posts list is empty, `render_index` renders no
pages at all; no page-1 index with an empty post list is produced, so
`render_index` by itself does not guarantee that `index.html` exists. -/
theorem empty_posts_renders_no_pages (n : Nat) :
    render_index_pages ([] : List α) n = [] := by
  unfold render_index_pages
  simp [total_pages_zero]

/-- C9 counterexample: at 6 posts and POSTS_PER_PAGE = 5, page 2's title is
"Home - Pagina 2" (the code's Italian string), not "Home - Page 2" as the
claim states. -/
theorem index_page_title_counterexample :
    ¬ ∀ pg ∈ render_index_pages (List.range 6) 5, 1 < pg.page_num →
        pg.title = "Home - Page " ++ toString pg.page_num := by
  decide

/-- C9 amended: every page produced by `render_index` with page number 1 is
written to `index.html` with title "Home", and every page `p > 1` to
`page/<p>.html` with title "Home - Pagina <p>". -/
theorem index_page_paths_titles (posts : List α) (n : Nat) (pg : IndexPage α)
    (hmem : pg ∈ render_index_pages posts n) :
    (pg.page_num = 1 → pg.out_path = "index.html" ∧ pg.title = "Home") ∧
    (1 < pg.page_num → pg.out_path = "page/" ++ toString pg.page_num ++ ".html" ∧
      pg.title = "Home - Pagina " ++ toString pg.page_num) := by
  unfold render_index_pages at hmem
  obtain ⟨i, _, rfl⟩ := List.mem_map.1 hmem
  by_cases hi : i + 1 = 1
  · simp [hi]
  · constructor
    · intro h
      exact absurd h hi
    · intro _
      simp [hi]

/-- Witness for C9 at page 2 of 6 posts with POSTS_PER_PAGE = 5. -/
theorem index_page_paths_titles_witness :
    pg2demo.out_path = "page/" ++ toString pg2demo.page_num ++ ".html" ∧
    pg2demo.title = "Home - Pagina " ++ toString pg2demo.page_num :=
  (index_page_paths_titles (List.range 6) 5 pg2demo (by decide)).2 (by decide)

theorem subScanF_nil (n : Nat) : subScanF n [] = [] := by
  cases n <;> rfl

theorem takeWhile_append_run {p : Char → Bool} (xs : List Char) (y : Char) (ys : List Char)
    (hx : ∀ x ∈ xs, p x = true) (hy : p y = false) :
    (xs ++ y :: ys).takeWhile p = xs := by
  induction xs with
  | nil => simp [hy]
  | cons a tl ih =>
    have ha : p a = true := hx a (by simp)
    have htl : ∀ x ∈ tl, p x = true := fun x hx' => hx x (by simp [hx'])
    simp [ha, ih htl]

theorem dropWhile_append_run {p : Char → Bool} (xs : List Char) (y : Char) (ys : List Char)
    (hx : ∀ x ∈ xs, p x = true) (hy : p y = false) :
    (xs ++ y :: ys).dropWhile p = y :: ys := by
  induction xs with
  | nil => simp [hy]
  | cons a tl ih =>
    have ha : p a = true := hx a (by simp)
    have htl : ∀ x ∈ tl, p x = true := fun x hx' => hx x (by simp [hx'])
    simp [ha, ih htl]

theorem eq_append_drop_of_isPrefixOf {l s : List Char} (h : l.isPrefixOf s = true) :
    s = l ++ s.drop l.length := by
  obtain ⟨t, rfl⟩ := List.isPrefixOf_iff_prefix.1 h
  rw [List.drop_left]

theorem isPrefixOf_self_append (l t : List Char) : l.isPrefixOf (l ++ t) = true :=
  List.isPrefixOf_iff_prefix.2 (List.prefix_append l t)

theorem occursIn_string_mono (pat l t : List Char) (h : occursIn pat t = true) :
    occursIn pat (l ++ t) = true := by
  induction l with
  | nil => exact h
  | cons c cs ih => simp [occursIn, ih]

theorem occursIn_pattern_mono (p q s : List Char) (h : occursIn p s = false) :
    occursIn (p ++ q) s = false := by
  induction s with
  | nil =>
    show (p ++ q).isEmpty = false
    have hp : p.isEmpty = false := h
    cases p with
    | nil => exact Bool.noConfusion hp
    | cons a as => rfl
  | cons c cs ih =>
    simp only [occursIn, Bool.or_eq_false_iff] at h ⊢
    refine ⟨?_, ih h.2⟩
    by_contra hb
    have hb' : (p ++ q).isPrefixOf (c :: cs) = true := by
      cases hval : (p ++ q).isPrefixOf (c :: cs) with
      | true => rfl
      | false => exact absurd hval hb
    have hp : p <+: c :: cs :=
      (List.prefix_append p q).trans (List.isPrefixOf_iff_prefix.1 hb')
    have : p.isPrefixOf (c :: cs) = true := List.isPrefixOf_iff_prefix.2 hp
    rw [this] at h
    exact Bool.noConfusion h.1

theorem occursIn_srcQuote_pad (T : List Char) (h : occursIn srcQuote T = false) :
    occursIn srcQuote ('r' :: 'c' :: '=' :: '"' :: T) = false := by
  have hs : ∀ (b : Char) (bs : List Char), b ≠ 's' → srcQuote.isPrefixOf (b :: bs) = false := by
    intro b bs hb
    show (('s' :: ['r', 'c', '=', '"']).isPrefixOf (b :: bs)) = false
    rw [List.isPrefixOf_cons₂]
    have : ('s' == b) = false := by
      rw [beq_eq_false_iff_ne]
      exact fun hsb => hb hsb.symm
    rw [this, Bool.false_and]
  show (srcQuote.isPrefixOf ('r' :: 'c' :: '=' :: '"' :: T)
      || (srcQuote.isPrefixOf ('c' :: '=' :: '"' :: T)
      || (srcQuote.isPrefixOf ('=' :: '"' :: T)
      || (srcQuote.isPrefixOf ('"' :: T) || occursIn srcQuote T)))) = false
  rw [hs 'r' _ (by decide), hs 'c' _ (by decide), hs '=' _ (by decide),
    hs '"' _ (by decide), h]
  rfl

theorem orElseO_some {α : Type} (r : α) (b : Option α) : orElseO (some r) b = some r := rfl

theorem orElseO_none {α : Type} (b : Option α) : orElseO none b = b := rfl

theorem optMap_none {α β : Type} (f : α → β) : (none : Option α).map f = none := rfl

theorem optMap_some {α β : Type} (f : α → β) (a : α) : (some a).map f = some (f a) := rfl

theorem eq_false_imp_not_true {b : Bool} (h : b = false) : ¬(b = true) := by
  intro ht
  rw [h] at ht
  exact Bool.noConfusion ht

theorem matchFrom_cons (c : Char) (cs : List Char) :
    matchFrom (c :: cs) =
      orElseO
        (if c == '>' then none
         else (matchFrom cs).map fun r => (c :: r.1, r.2.1, r.2.2.1, r.2.2.2))
        (if srcQuote.isPrefixOf (c :: cs) then
          (matchTail ((c :: cs).drop 5)).map fun r => ([], r.1, r.2.1, r.2.2)
        else none) := rfl

theorem afterQuote_cons (g2 : List Char) (c1 : Char) (r2 : List Char) :
    afterQuote g2 (c1 :: r2) =
      if c1 = '"' then
        afterG3 g2 (r2.takeWhile fun c => !(c == '>')) (r2.dropWhile fun c => !(c == '>'))
      else none := rfl

theorem afterG3_cons (g2 g3 : List Char) (c2 : Char) (rest : List Char) :
    afterG3 g2 g3 (c2 :: rest) =
      if c2 = '>' then some (imagesLit ++ g2, g3, rest) else none := rfl

theorem afterFrom_some (g1 src g3 rest : List Char) :
    afterFrom (some (g1, src, g3, rest)) =
      if g1.isEmpty then none else some (imgReplacement g1 src g3, rest) := rfl

theorem afterFrom_none : afterFrom none = none := rfl

theorem matchTail_none_of_not_images (s : List Char)
    (h : imagesLit.isPrefixOf s = false) : matchTail s = none := by
  unfold matchTail
  rw [if_neg (eq_false_imp_not_true h)]

theorem matchFrom_none (s : List Char) (h : occursIn srcImagesLit s = false) :
    matchFrom s = none := by
  induction s with
  | nil => rfl
  | cons c cs ih =>
    simp only [occursIn, Bool.or_eq_false_iff] at h
    have hdeep : matchFrom cs = none := ih h.2
    rw [matchFrom_cons, hdeep, optMap_none]
    have hleft : (if c == '>' then none
        else (none : Option (List Char × List Char × List Char × List Char))) = none := by
      cases c == '>' <;> rfl
    rw [hleft, orElseO_none]
    by_cases hq : srcQuote.isPrefixOf (c :: cs) = true
    · rw [if_pos hq]
      have hdec : c :: cs = srcQuote ++ (c :: cs).drop srcQuote.length :=
        eq_append_drop_of_isPrefixOf hq
      have him : imagesLit.isPrefixOf ((c :: cs).drop 5) = false := by
        cases hval : imagesLit.isPrefixOf ((c :: cs).drop 5) with
        | false => rfl
        | true =>
          obtain ⟨t, ht⟩ := List.isPrefixOf_iff_prefix.1 hval
          have hfull : srcImagesLit.isPrefixOf (c :: cs) = true := by
            apply List.isPrefixOf_iff_prefix.2
            refine ⟨t, ?_⟩
            show srcQuote ++ imagesLit ++ t = c :: cs
            rw [List.append_assoc, ht]
            have h5 : (c :: cs).drop srcQuote.length = (c :: cs).drop 5 := rfl
            rw [← h5, ← hdec]
          rw [hfull] at h
          exact Bool.noConfusion h.1
      rw [matchTail_none_of_not_images _ him, optMap_none]
    · rw [if_neg hq]

theorem matchTail_spec (sp a3 : List Char) (h3 : sp ≠ [])
    (h4 : ∀ c ∈ sp, c ≠ '"' ∧ c ≠ '>') (h5 : ∀ c ∈ a3, c ≠ '>') :
    matchTail (imagesLit ++ (sp ++ ('"' :: (a3 ++ ['>']))))
      = some (imagesLit ++ sp, a3, []) := by
  have hp2 : ∀ c ∈ sp, (!(c == '"') && !(c == '>')) = true := by
    intro c hc
    have h := h4 c hc
    simp [h.1, h.2]
  have hq2 : (!(('"' : Char) == '"') && !(('"' : Char) == '>')) = false := by decide
  have hp3 : ∀ c ∈ a3, (!(c == '>')) = true := by
    intro c hc
    simp [h5 c hc]
  have hq3 : (!(('>' : Char) == '>')) = false := by decide
  have htake2 : (sp ++ ('"' :: (a3 ++ ['>']))).takeWhile
      (fun c => !(c == '"') && !(c == '>')) = sp :=
    takeWhile_append_run sp '"' (a3 ++ ['>']) hp2 hq2
  have hdrop2 : (sp ++ ('"' :: (a3 ++ ['>']))).dropWhile
      (fun c => !(c == '"') && !(c == '>')) = '"' :: (a3 ++ ['>']) :=
    dropWhile_append_run sp '"' (a3 ++ ['>']) hp2 hq2
  have htake3 : (a3 ++ '>' :: ([] : List Char)).takeWhile (fun c => !(c == '>')) = a3 :=
    takeWhile_append_run a3 '>' [] hp3 hq3
  have hdrop3 : (a3 ++ '>' :: ([] : List Char)).dropWhile (fun c => !(c == '>')) = '>' :: [] :=
    dropWhile_append_run a3 '>' [] hp3 hq3
  have hspE : sp.isEmpty = false := by
    cases sp with
    | nil => exact absurd rfl h3
    | cons a t => rfl
  have hdrop7 : (imagesLit ++ (sp ++ ('"' :: (a3 ++ ['>'])))).drop 7
      = sp ++ ('"' :: (a3 ++ ['>'])) := by
    simp [imagesLit]
  unfold matchTail
  rw [if_pos (isPrefixOf_self_append imagesLit _), hdrop7, htake2, hdrop2,
    if_neg (eq_false_imp_not_true hspE)]
  rw [afterQuote_cons, if_pos (rfl : ('"' : Char) = '"'), htake3, hdrop3, afterG3_cons,
    if_pos (rfl : ('>' : Char) = '>')]

theorem matchFrom_append (T src g3 rest : List Char)
    (hT : matchTail T = some (src, g3, rest))
    (hocc : occursIn srcQuote T = false) :
    ∀ a1 : List Char, (∀ c ∈ a1, c ≠ '>') →
      matchFrom (a1 ++ (srcQuote ++ T)) = some (a1, src, g3, rest) := by
  intro a1 ha1
  induction a1 with
  | nil =>
    show matchFrom (srcQuote ++ T) = some ([], src, g3, rest)
    have harg : srcQuote ++ T = 's' :: (['r', 'c', '=', '"'] ++ T) := rfl
    rw [harg, matchFrom_cons]
    have hdeep : matchFrom (['r', 'c', '=', '"'] ++ T) = none := by
      apply matchFrom_none
      exact occursIn_pattern_mono srcQuote imagesLit _ (occursIn_srcQuote_pad T hocc)
    rw [hdeep, optMap_none]
    have hsb : (('s' : Char) == '>') = false := by decide
    rw [if_neg (eq_false_imp_not_true hsb), orElseO_none]
    have hpre : srcQuote.isPrefixOf ('s' :: (['r', 'c', '=', '"'] ++ T)) = true := by
      rw [← harg]
      exact isPrefixOf_self_append srcQuote T
    rw [if_pos hpre]
    have hdrop5 : ('s' :: (['r', 'c', '=', '"'] ++ T)).drop 5 = T := by simp
    rw [hdrop5, hT, optMap_some]
  | cons c a1' ih =>
    have hc : c ≠ '>' := ha1 c (by simp)
    have ih' := ih fun x hx => ha1 x (by simp [hx])
    have hcb : (c == '>') = false := by
      rw [beq_eq_false_iff_ne]
      exact hc
    show matchFrom (c :: (a1' ++ (srcQuote ++ T))) = some (c :: a1', src, g3, rest)
    rw [matchFrom_cons, ih', optMap_some, if_neg (eq_false_imp_not_true hcb), orElseO_some]

theorem matchAt_some (a1 T src g3 rest : List Char)
    (hT : matchTail T = some (src, g3, rest)) (hocc : occursIn srcQuote T = false)
    (h1 : a1 ≠ []) (h2 : ∀ c ∈ a1, c ≠ '>') :
    matchAt (imgLit ++ (a1 ++ (srcQuote ++ T))) = some (imgReplacement a1 src g3, rest) := by
  have hdrop : (imgLit ++ (a1 ++ (srcQuote ++ T))).drop 4 = a1 ++ (srcQuote ++ T) := by
    simp [imgLit]
  have hae : a1.isEmpty = false := by
    cases a1 with
    | nil => exact absurd rfl h1
    | cons x xs => rfl
  unfold matchAt
  rw [if_pos (isPrefixOf_self_append imgLit _), hdrop,
    matchFrom_append T src g3 rest hT hocc a1 h2]
  rw [afterFrom_some, if_neg (eq_false_imp_not_true hae)]

theorem matchAt_none (s : List Char) (h : occursIn srcImagesLit s = false) :
    matchAt s = none := by
  unfold matchAt
  by_cases hp : imgLit.isPrefixOf s = true
  · rw [if_pos hp]
    have hdec := eq_append_drop_of_isPrefixOf hp
    have hocc4 : occursIn srcImagesLit (s.drop imgLit.length) = false := by
      cases hval : occursIn srcImagesLit (s.drop imgLit.length) with
      | false => rfl
      | true =>
        have hmono := occursIn_string_mono srcImagesLit imgLit _ hval
        rw [← hdec] at hmono
        rw [hmono] at h
        exact Bool.noConfusion h
    have hnone : matchFrom (s.drop 4) = none := by
      apply matchFrom_none
      simpa [imgLit] using hocc4
    rw [hnone, afterFrom_none]
  · rw [if_neg hp]

theorem subScanF_step_some (fuel : Nat) (c : Char) (cs r rest : List Char)
    (h : matchAt (c :: cs) = some (r, rest)) :
    subScanF (fuel + 1) (c :: cs) = r ++ subScanF fuel rest := by
  simp only [subScanF]
  rw [h]

theorem subScanF_step_none (fuel : Nat) (c : Char) (cs : List Char)
    (h : matchAt (c :: cs) = none) :
    subScanF (fuel + 1) (c :: cs) = c :: subScanF fuel cs := by
  simp only [subScanF]
  rw [h]

theorem subScanF_no_match (fuel : Nat) :
    ∀ s : List Char, occursIn srcImagesLit s = false → subScanF fuel s = s := by
  induction fuel with
  | zero =>
    intro s _
    rfl
  | succ f ih =>
    intro s hs
    cases s with
    | nil => rfl
    | cons c cs =>
      rw [subScanF_step_none f c cs (matchAt_none _ hs)]
      have hcs : occursIn srcImagesLit cs = false := by
        simp only [occursIn, Bool.or_eq_false_iff] at hs
        exact hs.2
      rw [ih cs hcs]

theorem apply_mk (l : List Char) :
    apply_responsive_images (String.mk l) = String.mk (subScanF l.length l) := rfl

set_option maxRecDepth 16384 in
set_option maxHeartbeats 3200000 in
/-- C3: every well-formed `<img>` tag whose `src` attribute matches
`images/<name><ext>` — written `<img` ++ `a1` ++ `src="images/` ++ `sp` ++
`"` ++ `a3` ++ `>` with group 1 `a1` non-empty and free of `>`, the path
`sp` non-empty and free of `"` and `>`, the trailing attributes `a3` free
of `>`, and no second `src="` inside the matched area — is rewritten so
that `src` becomes the `-mobile` variant and a `srcset` listing the
`-mobile` (480w), `-desktop` (1280w) and original (1920w) variants in that
ascending order plus the fixed `sizes` hint is added (`imgReplacement`);
and every fragment containing no `src="images/` at all — in particular
every `<img>` tag whose `src` does not match the `images/...` pattern —
is left character-for-character unchanged. -/
theorem responsive_rewrite_spec :
    (∀ a1 sp a3 : List Char, a1 ≠ [] → (∀ c ∈ a1, c ≠ '>') → sp ≠ [] →
      (∀ c ∈ sp, c ≠ '"' ∧ c ≠ '>') → (∀ c ∈ a3, c ≠ '>') →
      occursIn srcQuote (imagesLit ++ (sp ++ ('"' :: (a3 ++ ['>'])))) = false →
      apply_responsive_images
          (String.mk (imgLit ++ (a1 ++ (srcQuote ++
            (imagesLit ++ (sp ++ ('"' :: (a3 ++ ['>']))))))))
        = String.mk (imgReplacement a1 (imagesLit ++ sp) a3)) ∧
    (∀ s : String, occursIn srcImagesLit s.data = false →
      apply_responsive_images s = s) := by
  constructor
  · intro a1 sp a3 h1 h2 h3 h4 h5 h6
    have hT := matchTail_spec sp a3 h3 h4 h5
    have hMA := matchAt_some a1 (imagesLit ++ (sp ++ ('"' :: (a3 ++ ['>']))))
      (imagesLit ++ sp) a3 [] hT h6 h1 h2
    have hMA' : matchAt ('<' :: ('i' :: 'm' :: 'g' ::
        (a1 ++ (srcQuote ++ (imagesLit ++ (sp ++ ('"' :: (a3 ++ ['>']))))))))
        = some (imgReplacement a1 (imagesLit ++ sp) a3, []) := hMA
    conv_lhs => rw [apply_mk]
    congr 1
    have hL : imgLit ++ (a1 ++ (srcQuote ++ (imagesLit ++ (sp ++ ('"' :: (a3 ++ ['>']))))))
        = '<' :: ('i' :: 'm' :: 'g' ::
          (a1 ++ (srcQuote ++ (imagesLit ++ (sp ++ ('"' :: (a3 ++ ['>']))))))) := rfl
    conv_lhs => rw [hL, List.length_cons, subScanF_step_some _ _ _ _ _ hMA', subScanF_nil,
      List.append_nil]
  · intro s hs
    have happ : apply_responsive_images s = String.mk (subScanF s.data.length s.data) := rfl
    conv_lhs => rw [happ, subScanF_no_match _ _ hs]

set_option maxRecDepth 16384 in
set_option maxHeartbeats 3200000 in
/-- Witness for C3: the spec's example `<img src="images/cat.png">` gains
the three-entry ascending srcset and the `-mobile` src, while a tag whose
`src` is not under `images/` is returned unchanged. -/
theorem responsive_rewrite_spec_witness :
    apply_responsive_images "<img src=\"images/cat.png\">"
      = "<img src=\"images/cat-mobile.png\" srcset=\"images/cat-mobile.png 480w, images/cat-desktop.png 1280w, images/cat.png 1920w\" sizes=\"(max-width: 600px) 480px, 1280px\">" ∧
    apply_responsive_images "<img src=\"other/cat.png\">" = "<img src=\"other/cat.png\">" := by
  constructor
  · have h := responsive_rewrite_spec.1 [' '] ("cat.png".data) []
      (by decide) (by decide) (by decide) (by decide) (by decide) (by decide)
    have e1 : String.mk (imgLit ++ ([' '] ++ (srcQuote ++
          (imagesLit ++ (("cat.png".data) ++ ('"' :: (([] : List Char) ++ ['>'])))))))
        = "<img src=\"images/cat.png\">" := by decide
    have e2 : String.mk (imgReplacement [' '] (imagesLit ++ "cat.png".data) [])
        = "<img src=\"images/cat-mobile.png\" srcset=\"images/cat-mobile.png 480w, images/cat-desktop.png 1280w, images/cat.png 1920w\" sizes=\"(max-width: 600px) 480px, 1280px\">" := by
      decide
    rw [e1, e2] at h
    exact h
  · exact responsive_rewrite_spec.2 "<img src=\"other/cat.png\">" (by decide)

set_option maxRecDepth 16384 in
set_option maxHeartbeats 3200000 in
/-- C10: the rewriter is not idempotent.  On `<img src="images/cat.png">`
a second application rewrites the already-substituted `-mobile` source
again: the twice-rewritten output differs from the once-rewritten output
and contains `images/cat-mobile-mobile.png`. -/
theorem responsive_rewrite_not_idempotent :
    apply_responsive_images (apply_responsive_images "<img src=\"images/cat.png\">")
      ≠ apply_responsive_images "<img src=\"images/cat.png\">" ∧
    occursIn ("images/cat-mobile-mobile.png").data
      (apply_responsive_images
        (apply_responsive_images "<img src=\"images/cat.png\">")).data = true := by
  exact ⟨by decide, by decide⟩

/-- C5: for every post filename stem whose first 10 characters parse as a
valid YYYY-MM-DD date (under strptime's grammar plus the datetime
constructor's calendar validation), the Document's date is exactly that
parsed prefix, at midnight, with no warning; for every stem whose first 10
characters do not parse, extraction is total (the build never aborts), the
warning path runs, and the result is the supplied current time — whatever
value it has, so not a fixed epoch — and processing continues. -/
theorem post_date_extraction :
    (∀ (stem : List Char) (now : PyDateTime) (d : YMD),
      strptimeYMD (stem.take 10) = some d →
      render_post_date stem now = (⟨d, 0⟩, false)) ∧
    (∀ (stem : List Char) (now : PyDateTime),
      strptimeYMD (stem.take 10) = none →
      render_post_date stem now = (now, true)) := by
  constructor
  · intro stem now d h
    unfold render_post_date
    rw [h]
  · intro stem now h
    unfold render_post_date
    rw [h]

/-- Witness for C5: a valid leap-day stem parses to its prefix; an invalid
calendar date and a dateless stem both fall back to the supplied `now`
(two different `now` values, showing the fallback is not a constant). -/
theorem post_date_extraction_witness :
    render_post_date ("2024-02-29-leap-day").data ⟨⟨2025, 6, 1⟩, 42⟩
        = (⟨⟨2024, 2, 29⟩, 0⟩, false) ∧
    render_post_date ("2023-02-29-no-leap").data ⟨⟨2025, 6, 1⟩, 42⟩
        = (⟨⟨2025, 6, 1⟩, 42⟩, true) ∧
    render_post_date ("hello-world").data ⟨⟨1999, 1, 2⟩, 7⟩ = (⟨⟨1999, 1, 2⟩, 7⟩, true) :=
  ⟨post_date_extraction.1 _ _ ⟨2024, 2, 29⟩ (by decide),
   post_date_extraction.2 _ _ (by decide),
   post_date_extraction.2 _ _ (by decide)⟩

theorem filter_orderedInsert (d : Nat) (a : PostMeta) (l : List PostMeta) :
    (List.orderedInsert dateDescPost a l).filter (fun x => x.date == d)
      = if a.date == d then a :: l.filter (fun x => x.date == d)
        else l.filter (fun x => x.date == d) := by
  induction l with
  | nil =>
    by_cases h : a.date = d
    · simp [List.orderedInsert, List.filter_cons, h]
    · simp [List.orderedInsert, List.filter_cons, h]
  | cons b l ih =>
    by_cases hr : dateDescPost a b
    · have hstep : List.orderedInsert dateDescPost a (b :: l) = a :: b :: l := by
        simp only [List.orderedInsert]
        rw [if_pos hr]
      rw [hstep]
      by_cases ha : a.date = d
      · simp [List.filter_cons, ha]
      · simp [List.filter_cons, ha]
    · have hstep : List.orderedInsert dateDescPost a (b :: l)
          = b :: List.orderedInsert dateDescPost a l := by
        simp only [List.orderedInsert]
        rw [if_neg hr]
      rw [hstep]
      by_cases ha : a.date = d
      · have hb : ¬(b.date = d) := by
          unfold dateDescPost at hr
          omega
        simp [List.filter_cons, ha, hb, ih]
      · by_cases hb : b.date = d
        · simp [List.filter_cons, ha, hb, ih]
        · simp [List.filter_cons, ha, hb, ih]

theorem render_posts_filter_stable (discovered : List PostMeta) (d : Nat) :
    (render_posts_metadata discovered).filter (fun x => x.date == d)
      = discovered.filter (fun x => x.date == d) := by
  unfold render_posts_metadata
  induction discovered with
  | nil => rfl
  | cons a l ih =>
    simp only [List.insertionSort]
    rw [filter_orderedInsert]
    by_cases ha : a.date = d
    · simp [List.filter_cons, ha, ih]
    · simp [List.filter_cons, ha, ih]

/-- C7: the metadata list returned by `render_posts` is sorted by date
descending, and the sort is stable with respect to discovery order: for
every date, filtering the result down to the posts of that date yields
exactly the discovery-order sublist of those posts. -/
theorem render_posts_sorted_and_stable (discovered : List PostMeta) :
    List.Sorted dateDescPost (render_posts_metadata discovered) ∧
    ∀ d : Nat, (render_posts_metadata discovered).filter (fun x => x.date == d)
      = discovered.filter (fun x => x.date == d) :=
  ⟨List.sorted_insertionSort dateDescPost discovered,
   fun d => render_posts_filter_stable discovered d⟩

theorem splitlinesAuxF_nil (f : Nat) (acc : List Char) :
    splitlinesAuxF f acc [] = if acc.isEmpty then [] else [acc.reverse] := by
  cases f with
  | zero => rfl
  | succ g => rfl

theorem splitlinesAuxF_newline (f : Nat) (acc rest : List Char) :
    splitlinesAuxF (f + 1) acc ('\n' :: rest) = acc.reverse :: splitlinesAuxF f [] rest := by
  simp only [splitlinesAuxF]
  rw [if_neg (by decide : ¬ (('\n' : Char) = '\r')),
    if_pos (by decide : isLineBreakChar '\n' = true)]

theorem splitlinesAuxF_char (f : Nat) (acc : List Char) (c : Char) (rest : List Char)
    (h : isLineBreakChar c = false) :
    splitlinesAuxF (f + 1) acc (c :: rest) = splitlinesAuxF f (c :: acc) rest := by
  have hc : ¬ (c = '\r') := by
    intro e
    rw [e] at h
    exact absurd h (by decide)
  simp only [splitlinesAuxF]
  rw [if_neg hc, if_neg (eq_false_imp_not_true h)]

theorem splitlines_line_append (r : List Char) : ∀ (l0 acc : List Char),
    (∀ c ∈ l0, isLineBreakChar c = false) →
      splitlinesAuxF (l0 ++ '\n' :: r).length acc (l0 ++ '\n' :: r)
        = (acc.reverse ++ l0) :: splitlines r := by
  intro l0
  induction l0 with
  | nil =>
    intro acc _
    show splitlinesAuxF (r.length + 1) acc ('\n' :: r) = (acc.reverse ++ []) :: splitlines r
    rw [splitlinesAuxF_newline r.length acc r]
    simp [splitlines]
  | cons c l0' ih =>
    intro acc h
    show splitlinesAuxF ((l0' ++ '\n' :: r).length + 1) acc (c :: (l0' ++ '\n' :: r)) = _
    rw [splitlinesAuxF_char _ _ _ _ (h c (by simp)),
      ih (c :: acc) (fun x hx => h x (by simp [hx]))]
    simp

theorem splitlines_eq_line_cons (l0 r : List Char)
    (h : ∀ c ∈ l0, isLineBreakChar c = false) :
    splitlines (l0 ++ '\n' :: r) = l0 :: splitlines r := by
  have h2 := splitlines_line_append r l0 [] h
  simp only [List.reverse_nil, List.nil_append] at h2
  exact h2

theorem splitlinesAuxF_no_breaks (l0 : List Char) :
    ∀ (c : Char) (acc : List Char), (∀ x ∈ c :: l0, isLineBreakChar x = false) →
      splitlinesAuxF (l0.length + 1) acc (c :: l0) = [acc.reverse ++ (c :: l0)] := by
  induction l0 with
  | nil =>
    intro c acc h
    show splitlinesAuxF (0 + 1) acc [c] = [acc.reverse ++ [c]]
    rw [splitlinesAuxF_char 0 acc c [] (h c (by simp)), splitlinesAuxF_nil]
    simp
  | cons c2 l0' ih =>
    intro c acc h
    rw [splitlinesAuxF_char _ _ _ _ (h c (by simp)), List.length_cons,
      ih c2 (c :: acc) (fun x hx => h x (List.mem_cons_of_mem c hx))]
    simp

theorem splitlinesAuxF_ne_nil : ∀ (r acc : List Char), acc ≠ [] ∨ r ≠ [] →
    splitlinesAuxF r.length acc r ≠ [] := by
  intro r
  induction r with
  | nil =>
    intro acc h
    rw [splitlinesAuxF_nil]
    rcases h with h | h
    · have : acc.isEmpty = false := by
        cases acc with
        | nil => exact absurd rfl h
        | cons a t => rfl
      rw [this]
      exact List.cons_ne_nil _ _
    · exact absurd rfl h
  | cons c rest ih =>
    intro acc _
    rw [List.length_cons]
    by_cases hc : c = '\r'
    · subst hc
      simp only [splitlinesAuxF]
      rw [if_pos trivial]
      by_cases hh : rest.head? = some '\n'
      · rw [if_pos hh]
        exact List.cons_ne_nil _ _
      · rw [if_neg hh]
        exact List.cons_ne_nil _ _
    · by_cases hb : isLineBreakChar c = true
      · simp only [splitlinesAuxF]
        rw [if_neg hc, if_pos hb]
        exact List.cons_ne_nil _ _
      · have hb' : isLineBreakChar c = false := by
          cases hval : isLineBreakChar c with
          | false => rfl
          | true => exact absurd hval hb
        rw [splitlinesAuxF_char _ _ _ _ hb']
        exact ih (c :: acc) (Or.inl (List.cons_ne_nil c acc))

theorem splitlines_ne_nil (r : List Char) (h : r ≠ []) : splitlines r ≠ [] :=
  splitlinesAuxF_ne_nil r [] (Or.inr h)

theorem joinNL_cons_of_ne_nil (l : List Char) (ls : List (List Char)) (h : ls ≠ []) :
    joinNL (l :: ls) = l ++ '\n' :: joinNL ls := by
  cases ls with
  | nil => exact absurd rfl h
  | cons l' ls' => rfl

theorem dropWhile_head_false {p : Char → Bool} :
    ∀ (l : List Char) (x : Char) (xs : List Char), l.dropWhile p = x :: xs → p x = false := by
  intro l
  induction l with
  | nil =>
    intro x xs h
    exact absurd h (by simp)
  | cons c cs ih =>
    intro x xs h
    rw [List.dropWhile_cons] at h
    by_cases hc : p c = true
    · rw [if_pos hc] at h
      exact ih x xs h
    · rw [if_neg hc] at h
      injection h with h1 h2
      rw [← h1]
      cases hval : p c with
      | false => rfl
      | true => exact absurd hval hc

theorem joinNL_splitlines (n : Nat) :
    ∀ r : List Char, r.length ≤ n → (∀ c ∈ r, c = '\n' ∨ isLineBreakChar c = false) →
      r.getLast? ≠ some '\n' → joinNL (splitlines r) = r := by
  induction n with
  | zero =>
    intro r hlen _ _
    cases r with
    | nil => rfl
    | cons a t =>
      rw [List.length_cons] at hlen
      omega
  | succ m ih =>
    intro r hlen honly hlast
    by_cases hempty : r = []
    · subst hempty
      rfl
    · have htd : r.takeWhile (fun c => !(c == '\n')) ++ r.dropWhile (fun c => !(c == '\n')) = r :=
        List.takeWhile_append_dropWhile _ _
      have hl1nb : ∀ x ∈ r.takeWhile (fun c => !(c == '\n')), isLineBreakChar x = false := by
        intro x hx
        have hxr : x ∈ r := (List.takeWhile_sublist _).subset hx
        rcases honly x hxr with he | hb
        · have hxn := List.mem_takeWhile_imp hx
          rw [he] at hxn
          exact absurd hxn (by decide)
        · exact hb
      cases hrest : r.dropWhile (fun c => !(c == '\n')) with
      | nil =>
        have htr : r.takeWhile (fun c => !(c == '\n')) = r := by
          rw [hrest, List.append_nil] at htd
          exact htd
        have hnb : ∀ x ∈ r, isLineBreakChar x = false := by
          intro x hx
          apply hl1nb
          rw [htr]
          exact hx
        obtain ⟨rc, rtl, hr⟩ := List.exists_cons_of_ne_nil hempty
        have hnb' : ∀ x ∈ rc :: rtl, isLineBreakChar x = false := by
          rw [← hr]
          exact hnb
        have hsp : splitlinesAuxF ((rc :: rtl) : List Char).length [] (rc :: rtl)
            = [List.reverse [] ++ (rc :: rtl)] := by
          rw [List.length_cons]
          exact splitlinesAuxF_no_breaks rtl rc [] hnb'
        show joinNL (splitlinesAuxF r.length [] r) = r
        rw [hr, hsp]
        rfl
      | cons c rest' =>
        have hcnl : c = '\n' := by
          have hth := dropWhile_head_false r c rest' hrest
          have hb : (c == '\n') = true := by
            cases hval : c == '\n' with
            | true => rfl
            | false =>
              rw [hval] at hth
              exact absurd hth (by decide)
          exact eq_of_beq hb
        subst hcnl
        have hr : r.takeWhile (fun c => !(c == '\n')) ++ '\n' :: rest' = r := by
          rw [← hrest]
          exact htd
        by_cases hre : rest' = []
        · exfalso
          apply hlast
          rw [← hr, hre, List.getLast?_append]
          rfl
        · have hrlen : rest'.length ≤ m := by
            have h2 : (r.takeWhile (fun c => !(c == '\n')) ++ '\n' :: rest').length = r.length := by
              rw [hr]
            rw [List.length_append, List.length_cons] at h2
            omega
          have honly' : ∀ c ∈ rest', c = '\n' ∨ isLineBreakChar c = false := by
            intro c hc
            apply honly
            rw [← hr]
            exact List.mem_append.2 (Or.inr (List.mem_cons_of_mem _ hc))
          have hlast' : rest'.getLast? ≠ some '\n' := by
            intro hcon
            apply hlast
            rw [← hr, List.getLast?_append]
            obtain ⟨c2, rest'', he⟩ := List.exists_cons_of_ne_nil hre
            rw [he, List.getLast?_cons_cons, ← he, hcon]
            rfl
          have hjr : joinNL (splitlines rest') = rest' := ih rest' hrlen honly' hlast'
          rw [← hr, splitlines_eq_line_cons _ _ hl1nb,
            joinNL_cons_of_ne_nil _ _ (splitlines_ne_nil rest' hre), hjr]

theorem extract_cons_eq (text l0 : List Char) (rest : List (List Char))
    (h : splitlines text = l0 :: rest) :
    extract_tags_and_body text =
      if startsWithTagsColon l0 then (parseTagLine (l0.drop 5), joinNL rest)
      else ([], text) := by
  unfold extract_tags_and_body
  rw [h]

theorem parseTagLine_ne_nil (a : List Char) : ∀ t ∈ parseTagLine a, t ≠ [] := by
  intro t ht
  simp only [parseTagLine, List.mem_filterMap] at ht
  obtain ⟨piece, _, hp⟩ := ht
  by_cases he : (pyStrip piece).isEmpty = true
  · rw [if_pos he] at hp
    exact Option.noConfusion hp
  · rw [if_neg he] at hp
    injection hp with hpe
    intro hnil
    rw [← hpe] at hnil
    cases hps : pyStrip piece with
    | nil =>
      rw [hps] at he
      exact he rfl
    | cons x xs =>
      rw [hps] at hnil
      simp at hnil

/-- C6 counterexample: for the source "tags: a\nb\n" the first line is the
tags line and the source with that first line (and its newline terminator)
removed is "b\n"; but the rendered body produced by the code is
"\n".join(lines[1:]) = "b", which drops the trailing newline, so the body
is not the source with the first line removed. -/
theorem tag_body_counterexample :
    startsWithTagsColon ("tags: a".data) = true ∧
    "tags: a\nb\n".data = "tags: a".data ++ '\n' :: "b\n".data ∧
    (extract_tags_and_body ("tags: a\nb\n".data)).2 = "b".data ∧
    "b".data ≠ "b\n".data := by
  decide

/-- C6 (amended): for a source text of the form first-line ++ "\n" ++
remainder, where the first line contains no line-break character and the
remainder is newline-normalized (every line break in it is a plain "\n")
with no trailing newline: if the first line lowercased starts with
"tags:", the extracted tags are exactly the trimmed, lowercased,
non-empty comma-separated entries of the rest of that line and the body
is exactly the remainder, i.e. the source with the first line and its
terminator removed; otherwise the tags are empty and the body is the
whole source unchanged; and no extracted tag is ever the empty string. -/
theorem tag_line_extraction (text l0 r : List Char)
    (hsplit : text = l0 ++ '\n' :: r)
    (hl0 : ∀ c ∈ l0, isLineBreakChar c = false)
    (hr : ∀ c ∈ r, c = '\n' ∨ isLineBreakChar c = false)
    (hlast : r.getLast? ≠ some '\n') :
    (startsWithTagsColon l0 = true →
      extract_tags_and_body text = (parseTagLine (l0.drop 5), r)) ∧
    (startsWithTagsColon l0 = false → extract_tags_and_body text = ([], text)) ∧
    (∀ t ∈ (extract_tags_and_body text).1, t ≠ []) := by
  have hsp : splitlines text = l0 :: splitlines r := by
    rw [hsplit]
    exact splitlines_eq_line_cons l0 r hl0
  have hbody : joinNL (splitlines r) = r :=
    joinNL_splitlines r.length r le_rfl hr hlast
  have hext := extract_cons_eq text l0 (splitlines r) hsp
  refine ⟨?_, ?_, ?_⟩
  · intro ht
    rw [hext, if_pos ht, hbody]
  · intro hf
    rw [hext, if_neg (eq_false_imp_not_true hf)]
  · intro t hmem
    by_cases ht : startsWithTagsColon l0 = true
    · rw [hext, if_pos ht] at hmem
      exact parseTagLine_ne_nil _ t hmem
    · have ht' : startsWithTagsColon l0 = false := by
        cases hval : startsWithTagsColon l0 with
        | false => rfl
        | true => exact absurd hval ht
      rw [hext, if_neg (eq_false_imp_not_true ht')] at hmem
      simp at hmem

/-- C6 witness: the amended extraction theorem applied to the concrete
source "tags: Go, rust\nBody\nMore". -/
theorem tag_line_extraction_witness :
    extract_tags_and_body ("tags: Go, rust\nBody\nMore".data)
      = (["go".data, "rust".data], "Body\nMore".data) := by
  have h := tag_line_extraction ("tags: Go, rust\nBody\nMore".data)
    ("tags: Go, rust".data) ("Body\nMore".data) (by decide) (by decide)
    (by decide) (by decide)
  rw [h.1 (by decide)]
  decide

theorem optOr_some {α : Type} (a : α) (b : Option α) : (Option.some a).or b = some a := rfl

theorem optOr_none_left {α : Type} (b : Option α) : (Option.none : Option α).or b = b := rfl

theorem optOr_none_right {α : Type} (o : Option α) : o.or none = o := by
  cases o <;> rfl

theorem optOr_assoc {α : Type} (a b c : Option α) : (a.or b).or c = a.or (b.or c) := by
  cases a <;> rfl

theorem not_true_imp_eq_false {b : Bool} (h : ¬ (b = true)) : b = false := by
  cases hval : b with
  | false => rfl
  | true => exact absurd hval h

theorem find_cons_pos {α : Type} (p : α → Bool) (a : α) (l : List α) (h : p a = true) :
    (a :: l).find? p = some a := List.find?_cons_of_pos l h

theorem find_cons_neg {α : Type} (p : α → Bool) (a : α) (l : List α) (h : p a = false) :
    (a :: l).find? p = l.find? p :=
  List.find?_cons_of_neg l (eq_false_imp_not_true h)

theorem find_some_eq_true {α : Type} (p : α → Bool) (l : List α) (a : α)
    (h : l.find? p = some a) : p a = true := List.find?_some h

theorem find_map_keyOf (f : String × TagEntry → String × TagEntry)
    (hk : ∀ e, (f e).1 = e.1) (s : String) :
    ∀ m : List (String × TagEntry),
      (m.map f).find? (fun e => e.1 == s) = (m.find? fun e => e.1 == s).map f := by
  intro m
  induction m with
  | nil => rfl
  | cons a l ih =>
    by_cases ha : (a.1 == s) = true
    · have ha' : ((f a).1 == s) = true := by
        rw [hk a]
        exact ha
      rw [List.map_cons, find_cons_pos (fun e => e.1 == s) (f a) (List.map f l) ha',
        find_cons_pos (fun e => e.1 == s) a l ha, optMap_some]
    · have ha' : ¬ (((f a).1 == s) = true) := by
        rw [hk a]
        exact ha
      rw [List.map_cons,
        find_cons_neg (fun e => e.1 == s) (f a) (List.map f l) (not_true_imp_eq_false ha'),
        find_cons_neg (fun e => e.1 == s) a l (not_true_imp_eq_false ha), ih]

theorem lookupSlug_map_keyOf (f : String × TagEntry → String × TagEntry)
    (hk : ∀ e, (f e).1 = e.1) (m : List (String × TagEntry)) (s : String) :
    lookupSlug (m.map f) s = (m.find? fun e => e.1 == s).map fun e => (f e).2 := by
  unfold lookupSlug
  rw [find_map_keyOf f hk s m]
  cases m.find? fun e => e.1 == s with
  | none => rfl
  | some a => rfl

theorem lookupSlug_addTag_of_none (sm : PostSummary) (m : List (String × TagEntry))
    (tag s : String) (h0 : lookupSlug m s = none) :
    lookupSlug (addTag sm m tag) s =
      if slugify tag == s then some { name := tag, posts := [sm], count := 1 } else none := by
  have hfind0 : m.find? (fun e => e.1 == s) = none := by
    unfold lookupSlug at h0
    cases hval : m.find? fun e => e.1 == s with
    | none => rfl
    | some a =>
      rw [hval, optMap_some] at h0
      exact Option.noConfusion h0
  have hk : ∀ e : String × TagEntry,
      ((if e.1 == slugify tag then
          (e.1, { e.2 with posts := e.2.posts ++ [sm], count := e.2.count + 1 })
        else e) : String × TagEntry).1 = e.1 := by
    intro e
    by_cases he : (e.1 == slugify tag) = true
    · rw [if_pos he]
    · rw [if_neg he]
  simp only [addTag]
  by_cases hf : ((m.find? fun e => e.1 == slugify tag).isSome) = true
  · rw [if_pos hf, lookupSlug_map_keyOf _ hk m s, hfind0]
    have hss : ¬ ((slugify tag == s) = true) := by
      intro hval
      have heq : slugify tag = s := eq_of_beq hval
      rw [heq, hfind0] at hf
      exact Bool.noConfusion hf
    rw [if_neg hss]
    rfl
  · rw [if_neg hf]
    unfold lookupSlug
    rw [List.find?_append, hfind0]
    by_cases hst : (slugify tag == s) = true
    · rw [find_cons_pos (fun e => e.1 == s)
          ((slugify tag, { name := tag, posts := [sm], count := 1 }) : String × TagEntry)
          [] hst, if_pos hst]
      rfl
    · rw [find_cons_neg (fun e => e.1 == s)
          ((slugify tag, { name := tag, posts := [sm], count := 1 }) : String × TagEntry)
          [] (not_true_imp_eq_false hst), if_neg hst]
      rfl

theorem lookupSlug_addTag_of_some (sm : PostSummary) (m : List (String × TagEntry))
    (tag s : String) (e : TagEntry) (h0 : lookupSlug m s = some e) :
    lookupSlug (addTag sm m tag) s =
      some (if slugify tag == s then
        { e with posts := e.posts ++ [sm], count := e.count + 1 } else e) := by
  have hfind0 : ∃ a, m.find? (fun x => x.1 == s) = some a ∧ a.2 = e := by
    unfold lookupSlug at h0
    cases hval : m.find? fun x => x.1 == s with
    | none =>
      rw [hval, optMap_none] at h0
      exact Option.noConfusion h0
    | some a =>
      rw [hval, optMap_some] at h0
      injection h0 with h2
      exact ⟨a, rfl, h2⟩
  obtain ⟨a, hfa, hae⟩ := hfind0
  have hk : ∀ x : String × TagEntry,
      ((if x.1 == slugify tag then
          (x.1, { x.2 with posts := x.2.posts ++ [sm], count := x.2.count + 1 })
        else x) : String × TagEntry).1 = x.1 := by
    intro x
    by_cases hx : (x.1 == slugify tag) = true
    · rw [if_pos hx]
    · rw [if_neg hx]
  have hpa : (a.1 == s) = true := find_some_eq_true (fun x => x.1 == s) m a hfa
  simp only [addTag]
  by_cases hf : ((m.find? fun x => x.1 == slugify tag).isSome) = true
  · rw [if_pos hf, lookupSlug_map_keyOf _ hk m s, hfa, optMap_some]
    show some (if a.1 == slugify tag then
        (a.1, { a.2 with posts := a.2.posts ++ [sm], count := a.2.count + 1 })
      else a).2 = _
    by_cases hst : (slugify tag == s) = true
    · have hasl : (a.1 == slugify tag) = true := by
        have h1 : a.1 = s := eq_of_beq hpa
        have h2 : slugify tag = s := eq_of_beq hst
        rw [h1, h2]
        exact beq_self_eq_true s
      rw [if_pos hst, if_pos hasl, ← hae]
    · have hasl : ¬ ((a.1 == slugify tag) = true) := by
        intro hval
        apply hst
        have h2 : a.1 = slugify tag := eq_of_beq hval
        rw [← h2]
        exact hpa
      rw [if_neg hst, if_neg hasl, ← hae]
  · rw [if_neg hf]
    unfold lookupSlug
    rw [List.find?_append, hfa]
    have hst : ¬ ((slugify tag == s) = true) := by
      intro hval
      apply hf
      have h2 : slugify tag = s := eq_of_beq hval
      rw [h2, hfa]
      rfl
    rw [if_neg hst, ← hae]
    rfl

theorem countIn_addTag (sm : PostSummary) (m : List (String × TagEntry)) (tag s : String) :
    countIn (addTag sm m tag) s = countIn m s + (if slugify tag == s then 1 else 0) := by
  cases h0 : lookupSlug m s with
  | none =>
    unfold countIn
    rw [lookupSlug_addTag_of_none sm m tag s h0, h0]
    by_cases hst : (slugify tag == s) = true
    · rw [if_pos hst, if_pos hst]
    · rw [if_neg hst, if_neg hst]
  | some e =>
    unfold countIn
    rw [lookupSlug_addTag_of_some sm m tag s e h0, h0]
    by_cases hst : (slugify tag == s) = true
    · rw [if_pos hst, if_pos hst]
    · rw [if_neg hst, if_neg hst]
      rfl

theorem nameAt_addTag (sm : PostSummary) (m : List (String × TagEntry)) (tag s : String) :
    nameAt (addTag sm m tag) s
      = (nameAt m s).or (if slugify tag == s then some tag else none) := by
  cases h0 : lookupSlug m s with
  | none =>
    unfold nameAt
    rw [lookupSlug_addTag_of_none sm m tag s h0, h0]
    by_cases hst : (slugify tag == s) = true
    · rw [if_pos hst, if_pos hst]
      rfl
    · rw [if_neg hst, if_neg hst]
      rfl
  | some e =>
    unfold nameAt
    rw [lookupSlug_addTag_of_some sm m tag s e h0, h0]
    by_cases hst : (slugify tag == s) = true
    · rw [if_pos hst, if_pos hst]
      rfl
    · rw [if_neg hst, if_neg hst]
      rfl

theorem entry_inv_addTag (sm : PostSummary) (m : List (String × TagEntry)) (tag : String)
    (h : ∀ e ∈ m, e.2.count = e.2.posts.length ∧ 1 ≤ e.2.count) :
    ∀ e ∈ addTag sm m tag, e.2.count = e.2.posts.length ∧ 1 ≤ e.2.count := by
  intro e he
  simp only [addTag] at he
  by_cases hf : ((m.find? fun x => x.1 == slugify tag).isSome) = true
  · rw [if_pos hf] at he
    obtain ⟨a, ham, hae⟩ := List.mem_map.1 he
    by_cases hsl : (a.1 == slugify tag) = true
    · rw [if_pos hsl] at hae
      obtain ⟨h1, h2⟩ := h a ham
      rw [← hae]
      constructor
      · show a.2.count + 1 = (a.2.posts ++ [sm]).length
        rw [List.length_append, h1]
        rfl
      · show 1 ≤ a.2.count + 1
        omega
    · rw [if_neg hsl] at hae
      rw [← hae]
      exact h a ham
  · rw [if_neg hf] at he
    rcases List.mem_append.1 he with hm | hnew
    · exact h e hm
    · have hne : e = (slugify tag, { name := tag, posts := [sm], count := 1 }) := by
        simpa using hnew
      rw [hne]
      exact ⟨rfl, le_refl 1⟩

theorem nodup_keys_addTag (sm : PostSummary) (m : List (String × TagEntry)) (tag : String)
    (h : (keysOf m).Nodup) : (keysOf (addTag sm m tag)).Nodup := by
  have hk : ∀ e : String × TagEntry,
      ((if e.1 == slugify tag then
          (e.1, { e.2 with posts := e.2.posts ++ [sm], count := e.2.count + 1 })
        else e) : String × TagEntry).1 = e.1 := by
    intro e
    by_cases he : (e.1 == slugify tag) = true
    · rw [if_pos he]
    · rw [if_neg he]
  simp only [addTag]
  by_cases hf : ((m.find? fun e => e.1 == slugify tag).isSome) = true
  · rw [if_pos hf]
    have hkeys : keysOf (m.map fun e => if e.1 == slugify tag then
        (e.1, { e.2 with posts := e.2.posts ++ [sm], count := e.2.count + 1 })
      else e) = keysOf m := by
      unfold keysOf
      rw [List.map_map]
      exact List.map_congr_left fun a _ => hk a
    rw [hkeys]
    exact h
  · rw [if_neg hf]
    have hnone : m.find? (fun e => e.1 == slugify tag) = none :=
      Option.not_isSome_iff_eq_none.1 hf
    have hnotin : slugify tag ∉ keysOf m := by
      intro hin
      unfold keysOf at hin
      obtain ⟨a, ham, hfst⟩ := List.mem_map.1 hin
      have hna := List.find?_eq_none.1 hnone a ham
      apply hna
      show (a.1 == slugify tag) = true
      rw [hfst]
      exact beq_self_eq_true (slugify tag)
    unfold keysOf at h ⊢
    rw [List.map_append, List.nodup_append]
    refine ⟨h, by simp, ?_⟩
    intro x hx hx2
    have hxs : x = slugify tag := by
      simpa using hx2
    rw [hxs] at hx
    exact hnotin hx

theorem allTagOccurrences_nil : allTagOccurrences [] = [] := rfl

theorem allTagOccurrences_cons (p : PostMeta) (ps : List PostMeta) :
    allTagOccurrences (p :: ps) = p.tags ++ allTagOccurrences ps := by
  unfold allTagOccurrences
  rw [List.map_cons, List.flatten_cons]

theorem addPost_eq (m : List (String × TagEntry)) (p : PostMeta) :
    addPost m p = p.tags.foldl (addTag (summaryOf p)) m := rfl

theorem countIn_foldl_tags (sm : PostSummary) (s : String) :
    ∀ (tags : List String) (m : List (String × TagEntry)),
      countIn (tags.foldl (addTag sm) m) s
        = countIn m s + tags.countP (fun t => slugify t == s) := by
  intro tags
  induction tags with
  | nil =>
    intro m
    simp
  | cons t ts ih =>
    intro m
    have hcp : List.countP (fun x => slugify x == s) (t :: ts)
        = List.countP (fun x => slugify x == s) ts + (if slugify t == s then 1 else 0) := by
      rw [List.countP_cons]
    rw [List.foldl_cons, ih (addTag sm m t), countIn_addTag, hcp]
    omega

theorem countIn_foldl_posts (s : String) :
    ∀ (posts : List PostMeta) (m : List (String × TagEntry)),
      countIn (posts.foldl addPost m) s
        = countIn m s + (allTagOccurrences posts).countP (fun t => slugify t == s) := by
  intro posts
  induction posts with
  | nil =>
    intro m
    rw [List.foldl_nil, allTagOccurrences_nil]
    simp
  | cons p ps ih =>
    intro m
    rw [List.foldl_cons, ih (addPost m p), addPost_eq,
      countIn_foldl_tags (summaryOf p) s p.tags m, allTagOccurrences_cons, List.countP_append]
    omega

theorem countIn_collectRaw (posts : List PostMeta) (s : String) :
    countIn (collectRaw posts) s = occCount posts s := by
  unfold collectRaw occCount
  rw [countIn_foldl_posts s posts []]
  have h0 : countIn ([] : List (String × TagEntry)) s = 0 := rfl
  rw [h0, Nat.zero_add]

theorem nameAt_foldl_tags (sm : PostSummary) (s : String) :
    ∀ (tags : List String) (m : List (String × TagEntry)),
      nameAt (tags.foldl (addTag sm) m) s
        = (nameAt m s).or (tags.find? fun t => slugify t == s) := by
  intro tags
  induction tags with
  | nil =>
    intro m
    rw [List.foldl_nil, List.find?_nil, optOr_none_right]
  | cons t ts ih =>
    intro m
    rw [List.foldl_cons, ih (addTag sm m t), nameAt_addTag, optOr_assoc]
    by_cases hst : (slugify t == s) = true
    · rw [find_cons_pos (fun x => slugify x == s) t ts hst, if_pos hst, optOr_some]
    · rw [find_cons_neg (fun x => slugify x == s) t ts (not_true_imp_eq_false hst),
        if_neg hst, optOr_none_left]

theorem nameAt_foldl_posts (s : String) :
    ∀ (posts : List PostMeta) (m : List (String × TagEntry)),
      nameAt (posts.foldl addPost m) s
        = (nameAt m s).or ((allTagOccurrences posts).find? fun t => slugify t == s) := by
  intro posts
  induction posts with
  | nil =>
    intro m
    rw [List.foldl_nil, allTagOccurrences_nil, List.find?_nil, optOr_none_right]
  | cons p ps ih =>
    intro m
    rw [List.foldl_cons, ih (addPost m p), addPost_eq,
      nameAt_foldl_tags (summaryOf p) s p.tags m, allTagOccurrences_cons,
      List.find?_append, optOr_assoc]

theorem nameAt_collectRaw (posts : List PostMeta) (s : String) :
    nameAt (collectRaw posts) s = firstTagName posts s := by
  unfold collectRaw firstTagName
  rw [nameAt_foldl_posts s posts []]
  have h0 : nameAt ([] : List (String × TagEntry)) s = none := rfl
  rw [h0, optOr_none_left]

theorem entry_inv_foldl_tags (sm : PostSummary) :
    ∀ (tags : List String) (m : List (String × TagEntry)),
      (∀ e ∈ m, e.2.count = e.2.posts.length ∧ 1 ≤ e.2.count) →
      ∀ e ∈ tags.foldl (addTag sm) m, e.2.count = e.2.posts.length ∧ 1 ≤ e.2.count := by
  intro tags
  induction tags with
  | nil =>
    intro m h
    exact h
  | cons t ts ih =>
    intro m h
    rw [List.foldl_cons]
    exact ih (addTag sm m t) (entry_inv_addTag sm m t h)

theorem entry_inv_foldl_posts :
    ∀ (posts : List PostMeta) (m : List (String × TagEntry)),
      (∀ e ∈ m, e.2.count = e.2.posts.length ∧ 1 ≤ e.2.count) →
      ∀ e ∈ posts.foldl addPost m, e.2.count = e.2.posts.length ∧ 1 ≤ e.2.count := by
  intro posts
  induction posts with
  | nil =>
    intro m h
    exact h
  | cons p ps ih =>
    intro m h
    rw [List.foldl_cons]
    exact ih (addPost m p) (entry_inv_foldl_tags (summaryOf p) p.tags m h)

theorem nodup_keys_foldl_tags (sm : PostSummary) :
    ∀ (tags : List String) (m : List (String × TagEntry)),
      (keysOf m).Nodup → (keysOf (tags.foldl (addTag sm) m)).Nodup := by
  intro tags
  induction tags with
  | nil =>
    intro m h
    exact h
  | cons t ts ih =>
    intro m h
    rw [List.foldl_cons]
    exact ih (addTag sm m t) (nodup_keys_addTag sm m t h)

theorem nodup_keys_foldl_posts :
    ∀ (posts : List PostMeta) (m : List (String × TagEntry)),
      (keysOf m).Nodup → (keysOf (posts.foldl addPost m)).Nodup := by
  intro posts
  induction posts with
  | nil =>
    intro m h
    exact h
  | cons p ps ih =>
    intro m h
    rw [List.foldl_cons]
    exact ih (addPost m p) (nodup_keys_foldl_tags (summaryOf p) p.tags m h)

theorem nodup_keys_collectRaw (posts : List PostMeta) :
    (keysOf (collectRaw posts)).Nodup :=
  nodup_keys_foldl_posts posts [] List.nodup_nil

theorem keysOf_collect (posts : List PostMeta) :
    keysOf (collect_all_tags_data posts) = keysOf (collectRaw posts) := by
  unfold collect_all_tags_data keysOf
  rw [List.map_map]
  exact List.map_congr_left fun a _ => rfl

theorem countIn_collect (posts : List PostMeta) (s : String) :
    countIn (collect_all_tags_data posts) s = countIn (collectRaw posts) s := by
  unfold collect_all_tags_data countIn
  rw [lookupSlug_map_keyOf
    (fun e => (e.1, { e.2 with posts := List.insertionSort dateDescSum e.2.posts }))
    (fun e => rfl) (collectRaw posts) s]
  unfold lookupSlug
  cases (collectRaw posts).find? fun e => e.1 == s with
  | none => rfl
  | some a => rfl

theorem nameAt_collect (posts : List PostMeta) (s : String) :
    nameAt (collect_all_tags_data posts) s = nameAt (collectRaw posts) s := by
  unfold collect_all_tags_data nameAt
  rw [lookupSlug_map_keyOf
    (fun e => (e.1, { e.2 with posts := List.insertionSort dateDescSum e.2.posts }))
    (fun e => rfl) (collectRaw posts) s]
  unfold lookupSlug
  cases (collectRaw posts).find? fun e => e.1 == s with
  | none => rfl
  | some a => rfl

/-- C4: `collect_all_tags_data` produces exactly one entry per distinct
slugified tag: the keys of the result are pairwise distinct, every entry
satisfies count = len(posts) with at least one post and its posts sorted
by date descending, the count recorded under any slug equals the total
number of (post, tag) occurrences whose slugification is that slug (so
spellings such as "Go" and "go" accumulate in the one entry of their
shared slug), and an entry for a slug exists iff at least one occurrence
normalizes to it. -/
theorem tag_aggregation_invariants (posts : List PostMeta) :
    (keysOf (collect_all_tags_data posts)).Nodup ∧
    (∀ e ∈ collect_all_tags_data posts,
      e.2.count = e.2.posts.length ∧ 1 ≤ e.2.count ∧
      List.Sorted dateDescSum e.2.posts) ∧
    (∀ s : String, countIn (collect_all_tags_data posts) s = occCount posts s) ∧
    (∀ s : String,
      (lookupSlug (collect_all_tags_data posts) s).isSome = true ↔ 0 < occCount posts s) := by
  refine ⟨?_, ?_, ?_, ?_⟩
  · rw [keysOf_collect]
    exact nodup_keys_collectRaw posts
  · intro e he
    unfold collect_all_tags_data at he
    obtain ⟨a, ham, hae⟩ := List.mem_map.1 he
    have hinv := entry_inv_foldl_posts posts []
      (fun x hx => absurd hx (List.not_mem_nil x)) a ham
    rw [← hae]
    refine ⟨?_, ?_, ?_⟩
    · show a.2.count = (List.insertionSort dateDescSum a.2.posts).length
      rw [List.length_insertionSort]
      exact hinv.1
    · exact hinv.2
    · exact List.sorted_insertionSort dateDescSum a.2.posts
  · intro s
    rw [countIn_collect posts s, countIn_collectRaw posts s]
  · intro s
    constructor
    · intro hs
      have hs' : ((collectRaw posts).find? fun e => e.1 == s).isSome = true := by
        unfold collect_all_tags_data lookupSlug at hs
        rw [find_map_keyOf
          (fun e => (e.1, { e.2 with posts := List.insertionSort dateDescSum e.2.posts }))
          (fun e => rfl) s (collectRaw posts)] at hs
        cases hfind : (collectRaw posts).find? fun e => e.1 == s with
        | none =>
          rw [hfind] at hs
          exact Bool.noConfusion hs
        | some a => rfl
      obtain ⟨a, ha⟩ := Option.isSome_iff_exists.1 hs'
      have ham : a ∈ collectRaw posts := List.mem_of_find?_eq_some ha
      have hinv := entry_inv_foldl_posts posts []
        (fun x hx => absurd hx (List.not_mem_nil x)) a ham
      have hc : countIn (collectRaw posts) s = a.2.count := by
        unfold countIn lookupSlug
        rw [ha]
        rfl
      rw [← countIn_collectRaw posts s, hc]
      exact hinv.2
    · intro hocc
      cases hl : lookupSlug (collect_all_tags_data posts) s with
      | some e => rfl
      | none =>
        exfalso
        have h0 : countIn (collect_all_tags_data posts) s = 0 := by
          unfold countIn
          rw [hl]
        rw [countIn_collect posts s, countIn_collectRaw posts s] at h0
        omega

/-- C8 counterexample: with the posts of `c8posts` the tag occurrences
are "go!" then "go", both slugifying to "go"; the single entry stored
under slug "go" keeps the display name "go!" of the first occurrence,
not the spelling "go" of the last occurrence processed, so "last
normalization wins" fails. -/
theorem tag_name_last_wins_counterexample :
    allTagOccurrences c8posts = ["go!", "go"] ∧
    slugify "go!" = "go" ∧ slugify "go" = "go" ∧
    nameAt (collect_all_tags_data c8posts) "go" = some "go!" ∧
    ¬ (("go!" : String) = "go") := by
  decide

/-- C8 (amended): when several tag spellings normalize to the same slug,
the display name of the single resulting entry is the spelling of the
FIRST processed occurrence with that slug: `collect_all_tags_data` sets
`name` only when the slug is first seen and never updates it. -/
theorem tag_name_first_occurrence (posts : List PostMeta) (s : String) (e : TagEntry)
    (h : lookupSlug (collect_all_tags_data posts) s = some e) :
    firstTagName posts s = some e.name := by
  have hn : nameAt (collect_all_tags_data posts) s = some e.name := by
    unfold nameAt
    rw [h, optMap_some]
  rw [← nameAt_collectRaw posts s, ← nameAt_collect posts s]
  exact hn

/-- C8 witness: the first-occurrence theorem applied to the concrete
colliding posts `c8posts`, whose occurrences "go!" then "go" share the
slug "go". -/
theorem tag_name_first_occurrence_witness :
    firstTagName c8posts "go" = some "go!" := by
  have h := tag_name_first_occurrence c8posts "go"
    { name := "go!",
      posts := [{ title := "p1", url := "posts/p1.html", date := 2 },
                { title := "p2", url := "posts/p2.html", date := 1 }],
      count := 2 } (by decide)
  exact h

end PyBlog
